import Mathlib

/-!
Shallow embedding of the wikitext core of `lingualibre_ml_wikt_bot.py`
(section parser, audio-presence detector, pronunciation editor, filename
parser).  Documents and filenames are modelled as `List Char`; the Python
regexes are compiled by hand into explicit bounded backtracking searches
that follow the Python `re` engine's strategy (greedy quantifiers try the
longest extent first, lazy quantifiers the shortest; the first overall
success is returned).
-/

/-- Python's whitespace predicate (`\s` for `str` patterns and `str.strip`):
the characters for which CPython's `Py_UNICODE_ISSPACE` holds. -/
def isPySpace (c : Char) : Bool :=
  c == ' ' || c == '\t' || c == '\n' || (c.val ≥ 0xb && c.val ≤ 0xd) ||
  (c.val ≥ 0x1c && c.val ≤ 0x1f) || c.val == 0x85 || c.val == 0xa0 ||
  c.val == 0x1680 || (c.val ≥ 0x2000 && c.val ≤ 0x200a) ||
  c.val == 0x2028 || c.val == 0x2029 || c.val == 0x202f ||
  c.val == 0x205f || c.val == 0x3000

/-- Length of the maximal run of characters satisfying `p` at the head. -/
def runLen (p : Char → Bool) : List Char → Nat
  | [] => 0
  | c :: cs => if p c then runLen p cs + 1 else 0

/-- Maximal leading run of `\s` characters. -/
def wsRun : List Char → Nat := runLen isPySpace

/-- Maximal leading run of `=` characters. -/
def eqRun : List Char → Nat := runLen (fun c => c == '=')

/-- Maximal leading run of characters matchable by `.` (anything but
newline; the patterns are not compiled with `DOTALL`). -/
def nonNlRun : List Char → Nat := runLen (fun c => c != '\n')

/-- Maximal leading run of newline characters (for `str.lstrip("\n")`). -/
def nlRun : List Char → Nat := runLen (fun c => c == '\n')

/-- `str.rstrip("\n")`: remove trailing newline characters. -/
def pyRstripNl (l : List Char) : List Char :=
  (l.reverse.dropWhile (fun c => c == '\n')).reverse

/-- `str.strip()`: remove leading and trailing whitespace. -/
def pyStrip (l : List Char) : List Char :=
  ((l.dropWhile isPySpace).reverse.dropWhile isPySpace).reverse

/-- Try `g` on `lo + k - 1, …, lo` (used via `tryDesc`): backtracking order
of a greedy quantifier, longest extent first. -/
def tryDescAux {α : Type} (g : Nat → Option α) (lo : Nat) : Nat → Option α
  | 0 => none
  | k + 1 =>
    match g (lo + k) with
    | some v => some v
    | none => tryDescAux g lo k

/-- Try `g` on `hi, hi - 1, …, lo`; `none` if `hi < lo` or all fail. -/
def tryDesc {α : Type} (g : Nat → Option α) (lo hi : Nat) : Option α :=
  tryDescAux g lo (hi + 1 - lo)

/-- Try `g` on `lo, lo + 1, …` for `k` values: backtracking order of a lazy
quantifier, shortest extent first. -/
def tryAscAux {α : Type} (g : Nat → Option α) (lo : Nat) : Nat → Option α
  | 0 => none
  | k + 1 =>
    match g lo with
    | some v => some v
    | none => tryAscAux g (lo + 1) k

/-- Try `g` on `lo, lo + 1, …, hi`; `none` if `hi < lo` or all fail. -/
def tryAsc {α : Type} (g : Nat → Option α) (lo hi : Nat) : Option α :=
  tryAscAux g lo (hi + 1 - lo)

/-- Raw data of one header match of
`re.compile(r"^(={2,6})\s*(.+?)\s*\1\s*$", re.MULTILINE)`:
total length of group 0, the nesting level (length of group 1), and the
offset/length of group 2 (the title) inside the match. -/
structure HMRaw where
  len : Nat
  level : Nat
  toff : Nat
  tlen : Nat
  deriving DecidableEq

/-- Attempt the header pattern `(={2,6})\s*(.+?)\s*\1\s*$` at the head of
`t` (the `^` anchor is checked by the caller).  The nested searches mirror
the `re` engine's backtracking: the greedy `={2,6}` and each `\s*` try the
longest extent first, the lazy `(.+?)` the shortest; `$` (MULTILINE)
accepts end of input or a following newline. -/
def headerMatchAt (t : List Char) : Option HMRaw :=
  tryDesc (fun n =>
    if 2 ≤ n ∧ n ≤ eqRun t then
      let t1 := t.drop n
      tryDesc (fun b =>
        let t2 := t1.drop b
        tryAsc (fun c =>
          let t3 := t2.drop c
          tryDesc (fun d =>
            let t4 := t3.drop d
            if n ≤ eqRun t4 then
              let t5 := t4.drop n
              tryDesc (fun f =>
                let t6 := t5.drop f
                if t6 = [] ∨ t6.head? = some '\n' then
                  some ⟨n + b + c + d + n + f, n, n + b, c⟩
                else none) 0 (wsRun t5)
            else none) 0 (wsRun t3)) 1 (nonNlRun t2)) 0 (wsRun t1)
    else none) 2 6

/-- `^` with `re.MULTILINE`: position `p` starts the string or follows a
newline. -/
def lineStartAt (doc : List Char) (p : Nat) : Bool :=
  p == 0 || doc[p - 1]? == some '\n'

/-- `re.finditer` over the document: scan positions left to right, try the
header pattern at every line start, and resume after the end of each
match.  `fuel` bounds the recursion; `scanHeaders` supplies enough fuel
for the scan to run to the end of the document. -/
def scanHeadersAux (doc : List Char) : Nat → Nat → List (Nat × HMRaw)
  | 0, _ => []
  | fuel + 1, pos =>
    if pos > doc.length then []
    else if lineStartAt doc pos then
      match headerMatchAt (doc.drop pos) with
      | some m => (pos, m) :: scanHeadersAux doc fuel (pos + m.len)
      | none => scanHeadersAux doc fuel (pos + 1)
    else scanHeadersAux doc fuel (pos + 1)

/-- All header matches of the document, in document order. -/
def scanHeaders (doc : List Char) : List (Nat × HMRaw) :=
  scanHeadersAux doc (doc.length + 1) 0

/-- One section record of `parse_sections`: nesting level, stripped title,
the matched header text, the span positions and the content slice. -/
structure PSection where
  level : Nat
  title : List Char
  header_text : List Char
  start_pos : Nat
  content_start : Nat
  end_pos : Nat
  content : List Char
  deriving DecidableEq

/-- Where a section ends: at the start of the next match, or at the end of
the document for the last section. -/
def sectionEnd (doc : List Char) : List (Nat × HMRaw) → Nat
  | [] => doc.length
  | (q, _) :: _ => q

/-- Build the section records from the match list: each section's content
runs from the end of its header match to the start of the next match (or
the end of the document). -/
def buildSections (doc : List Char) : List (Nat × HMRaw) → List PSection
  | [] => []
  | (p, m) :: rest =>
    { level := m.level
      title := pyStrip ((doc.drop (p + m.toff)).take m.tlen)
      header_text := (doc.drop p).take m.len
      start_pos := p
      content_start := p + m.len
      end_pos := sectionEnd doc rest
      content := (doc.drop (p + m.len)).take (sectionEnd doc rest - (p + m.len)) }
      :: buildSections doc rest

/-- `parse_sections`: split a document into an ordered list of sections. -/
def parse_sections (doc : List Char) : List PSection :=
  buildSections doc (scanHeaders doc)

/-- `PRONUNCIATION_HEADER = "ഉച്ചാരണം"`. -/
def PRONUNCIATION_HEADER : List Char := "ഉച്ചാരണം".data

/-- `AUDIO_LABEL = "ശബ്ദം"`. -/
def AUDIO_LABEL : List Char := "ശബ്ദം".data

/-- `ETYMOLOGY_HEADERS` (defined in the source but never read by any
function there). -/
def ETYMOLOGY_HEADERS : List (List Char) :=
  ["നിരുക്തം".data, "പദോല്പത്തി".data, "പദോത്പത്തി".data]

/-- The header line emitted for a new section, `f"=={PRONUNCIATION_HEADER}=="`. -/
def pronHeaderLine : List Char :=
  "==".data ++ PRONUNCIATION_HEADER ++ "==".data

/-- Case-insensitive match of one character of `audio` under
`re.IGNORECASE`: the ASCII upper/lower pair, plus CPython's extra
case-insensitive equivalents for the letter `i` — `İ` (U+0130) and `ı`
(U+0131); the letters `a`, `u`, `d`, `o` have no equivalents beyond
their ASCII pair. -/
def ciEq (c t : Char) : Bool :=
  c == t || c == t.toUpper ||
  (t == 'i' && (c == 'İ' || c == 'ı'))

/-- `\s*\|`, the tail of the audio pattern: skip the (deterministic)
maximal whitespace run, then require the argument separator. -/
def pipeAfterWs (r2 : List Char) : Bool :=
  match r2.dropWhile isPySpace with
  | '|' :: _ => true
  | _ => false

/-- `\s*audio\s*\|` (IGNORECASE) after the braces: skip the maximal
whitespace run, require the five letters of `audio` in any casing, then
the rest of the pattern. -/
def audioTail (rest : List Char) : Bool :=
  match rest.dropWhile isPySpace with
  | c1 :: c2 :: c3 :: c4 :: c5 :: r2 =>
    ciEq c1 'a' && ciEq c2 'u' && ciEq c3 'd' && ciEq c4 'i' && ciEq c5 'o' &&
      pipeAfterWs r2
  | _ => false

/-- Attempt `\{\{\s*audio\s*\|` (IGNORECASE) at the head of `t`.  Each
`\s*` here is deterministic: it is followed by a non-whitespace required
character, so the greedy maximal run is the only extent that can succeed. -/
def audioPrefixAt (t : List Char) : Bool :=
  match t with
  | '\x7b' :: '\x7b' :: rest => audioTail rest
  | _ => false

/-- `re.search`: try the audio pattern at every position. -/
def searchAudio : List Char → Bool
  | [] => false
  | c :: rest => audioPrefixAt (c :: rest) || searchAudio rest

/-- `page_has_audio`: the page contains `{{\s*audio\s*|` anywhere
(case-insensitively). -/
def page_has_audio (doc : List Char) : Bool := searchAudio doc

/-- `find_pronunciation_section`: first section whose (stripped) title is
exactly the pronunciation header. -/
def find_pronunciation_section (ss : List PSection) : Option PSection :=
  ss.find? (fun s => s.title == PRONUNCIATION_HEADER)

/-- `find_first_section_index`: always `0` (pronunciation goes first).
Defined in the source but never called. -/
def find_first_section_index (_ss : List PSection) : Nat := 0

/-- `build_audio_line`: `f"* {AUDIO_LABEL}: {{{{audio|{filename}}}}}"`. -/
def build_audio_line (filename : List Char) : List Char :=
  "* ".data ++ AUDIO_LABEL ++ ": \x7b\x7baudio|".data ++ filename ++ "\x7d\x7d".data

/-- The new-section text, `f"\n=={PRONUNCIATION_HEADER}==\n{audio_line}\n"`. -/
def newSectionText (filename : List Char) : List Char :=
  '\n' :: pronHeaderLine ++ '\n' :: build_audio_line filename ++ ['\n']

/-- `add_pronunciation_to_page`: the pronunciation editor.  Returns `none`
("no change") or the new document. -/
def add_pronunciation_to_page (wikitext filename : List Char) : Option (List Char) :=
  if page_has_audio wikitext then none
  else
    let audio_line := build_audio_line filename
    let sections := parse_sections wikitext
    match find_pronunciation_section sections with
    | some pron =>
      -- Case A: insert after the header, skipping leading newlines
      -- (`remaining.lstrip("\n")`).
      let insert0 := pron.content_start
      let skip := nlRun (wikitext.drop insert0)
      let ip := insert0 + skip
      some (wikitext.take ip ++ audio_line ++ '\n' :: wikitext.drop ip)
    | none =>
      let new_section := newSectionText filename
      match sections with
      | [] =>
        -- no sections at all: append after the (newline-stripped) content
        some (pyRstripNl wikitext ++ '\n' :: new_section ++ ['\n'])
      | s0 :: _ =>
        -- insert before the first section
        let preamble := pyRstripNl (wikitext.take s0.start_pos)
        let rest := wikitext.drop s0.start_pos
        if preamble = [] then some (new_section ++ '\n' :: rest)
        else some (preamble ++ '\n' :: new_section ++ '\n' :: rest)

/-- Structured result of the filename parser: the three capture groups of
`LL_FILENAME_REGEX`. -/
structure LLMatch where
  speaker : List Char
  word : List Char
  ext : List Char
  deriving DecidableEq

/-- `$` without MULTILINE: end of input, or a single final newline. -/
def atEndDollar (t : List Char) : Bool := t = [] || t = ['\n']

/-- One alternative of the extension alternation followed by `$`. -/
def extOne (e t : List Char) : Option (List Char) :=
  if t.take e.length = e ∧ atEndDollar (t.drop e.length) then some e else none

/-- The extension alternation body: try `wav`, `ogg`, `mp3`, `flac` in
pattern order. -/
def extMatch (t : List Char) : Option (List Char) :=
  match extOne "wav".data t with
  | some e => some e
  | none =>
    match extOne "ogg".data t with
    | some e => some e
    | none =>
      match extOne "mp3".data t with
      | some e => some e
      | none => extOne "flac".data t

/-- ASCII lower-case letter, for `[a-z]`. -/
def isLowerAlpha (c : Char) : Bool := 'a' ≤ c && c ≤ 'z'

/-- The word part of the filename pattern, `(.+)\.(wav|ogg|mp3|flac)$`,
with the already-captured speaker `sp`: the greedy `(.+)` tries the
longest extent first, then requires the literal `.`, one extension
alternative and `$`. -/
def llWordLoop (sp t4 : List Char) : Option LLMatch :=
  tryDesc (fun j =>
    match t4.drop j with
    | '.' :: t5 =>
      match extMatch t5 with
      | some e => some ⟨sp, t4.take j, e⟩
      | none => none
    | _ => none) 1 (nonNlRun t4)

/-- One extent of the lazy speaker capture `(.+?)` followed by the literal
`-` and the word part. -/
def llSpeakerLoop (t3 : List Char) (i : Nat) : Option LLMatch :=
  match t3.drop i with
  | '-' :: t4 => llWordLoop (t3.take i) t4
  | _ => none

/-- `re.match` with
`^LL-Q\d+\s*\([a-z]{3}\)-(.+?)-(.+)\.(wav|ogg|mp3|flac)$`.
`\d+` and `\s*` are deterministic here: `\d+` is followed by `\s*\(` and a
digit is not whitespace and not `(`, so only the maximal digit run can
succeed, and likewise only the maximal whitespace run (the next required
character `(` is not whitespace).  (`\d` is modelled as an ASCII digit;
Python also accepts other Unicode decimal digits there.)  The lazy
`(.+?)` tries the shortest speaker first. -/
def llFilenameMatch (s : List Char) : Option LLMatch :=
  match s with
  | 'L' :: 'L' :: '-' :: 'Q' :: t =>
    let k := runLen Char.isDigit t
    if k = 0 then none
    else
      let t1 := t.drop k
      match t1.drop (wsRun t1) with
      | '(' :: c1 :: c2 :: c3 :: ')' :: '-' :: t3 =>
        if isLowerAlpha c1 && isLowerAlpha c2 && isLowerAlpha c3 then
          tryAsc (llSpeakerLoop t3) 1 (nonNlRun t3)
        else none
      | _ => none
  | _ => none

/-- The preamble relative to a parsed section list: the text before the
first section's start (the whole document when there are no sections). -/
def sectionsPreamble (doc : List Char) (ss : List PSection) : List Char :=
  match ss with
  | [] => doc
  | s :: _ => doc.take s.start_pos

/-- Well-formedness of a header-match list produced by the scanner: every
recorded match really is a header match at its position, matches appear
at or after the lower bound, and each subsequent match starts at or after
the end of the previous one. -/
def ChainOK (doc : List Char) : Nat → List (Nat × HMRaw) → Prop
  | _, [] => True
  | lb, (p, m) :: rest =>
    lb ≤ p ∧ headerMatchAt (doc.drop p) = some m ∧ ChainOK doc (p + m.len) rest

/-!  ## Basic lemmas about runs and the backtracking searches  -/

theorem runLen_le (p : Char → Bool) : ∀ l : List Char, runLen p l ≤ l.length
  | [] => Nat.le_refl 0
  | c :: cs => by
    by_cases h : p c = true
    · have := runLen_le p cs
      simp only [runLen, h, if_true, List.length_cons]
      omega
    · simp [runLen, h]

theorem runLen_sat (p : Char → Bool) :
    ∀ (l : List Char) (i : Nat), i < runLen p l → ∃ c, l[i]? = some c ∧ p c = true := by
  intro l
  induction l with
  | nil => intro i h; simp [runLen] at h
  | cons c cs ih =>
    intro i h
    by_cases hc : p c = true
    · cases i with
      | zero => exact ⟨c, by simp, hc⟩
      | succ j =>
        simp only [runLen, hc, if_true] at h
        obtain ⟨d, hd, hpd⟩ := ih j (by omega)
        exact ⟨d, by simpa using hd, hpd⟩
    · simp [runLen, hc] at h

theorem runLen_stop (p : Char → Bool) :
    ∀ (l : List Char) (c : Char), l[runLen p l]? = some c → p c = false := by
  intro l
  induction l with
  | nil => intro c h; simp at h
  | cons a as ih =>
    intro c h
    by_cases ha : p a = true
    · simp only [runLen, ha, if_true] at h
      exact ih c (by simpa using h)
    · simp only [runLen, ha, if_false] at h
      simp at h
      subst h
      simpa using ha

theorem tryDescAux_eq_some {α : Type} {g : Nat → Option α} {lo : Nat} :
    ∀ {k : Nat} {v : α}, tryDescAux g lo k = some v →
      ∃ i, lo ≤ i ∧ i < lo + k ∧ g i = some v := by
  intro k
  induction k with
  | zero => intro v h; simp [tryDescAux] at h
  | succ k ih =>
    intro v h
    rw [tryDescAux] at h
    rcases hg : g (lo + k) with _ | w
    · rw [hg] at h
      obtain ⟨i, h1, h2, h3⟩ := ih h
      exact ⟨i, h1, by omega, h3⟩
    · rw [hg] at h
      cases h
      exact ⟨lo + k, by omega, by omega, hg⟩

theorem tryAscAux_eq_some {α : Type} {g : Nat → Option α} :
    ∀ {k lo : Nat} {v : α}, tryAscAux g lo k = some v →
      ∃ i, lo ≤ i ∧ i < lo + k ∧ g i = some v := by
  intro k
  induction k with
  | zero => intro lo v h; simp [tryAscAux] at h
  | succ k ih =>
    intro lo v h
    rw [tryAscAux] at h
    rcases hg : g lo with _ | w
    · rw [hg] at h
      obtain ⟨i, h1, h2, h3⟩ := ih h
      exact ⟨i, by omega, by omega, h3⟩
    · rw [hg] at h
      cases h
      exact ⟨lo, Nat.le_refl _, by omega, hg⟩

theorem tryDesc_eq_some {α : Type} {g : Nat → Option α} {lo hi : Nat} {v : α}
    (h : tryDesc g lo hi = some v) : ∃ i, lo ≤ i ∧ i ≤ hi ∧ g i = some v := by
  obtain ⟨i, h1, h2, h3⟩ := tryDescAux_eq_some h
  exact ⟨i, h1, by omega, h3⟩

theorem tryAsc_eq_some {α : Type} {g : Nat → Option α} {lo hi : Nat} {v : α}
    (h : tryAsc g lo hi = some v) : ∃ i, lo ≤ i ∧ i ≤ hi ∧ g i = some v := by
  obtain ⟨i, h1, h2, h3⟩ := tryAscAux_eq_some h
  exact ⟨i, h1, by omega, h3⟩

/-!  ## Structure of a successful header match  -/

theorem headerMatchAt_eq_some {t : List Char} {m : HMRaw}
    (h : headerMatchAt t = some m) :
    ∃ n b c d f,
      2 ≤ n ∧ n ≤ 6 ∧ n ≤ eqRun t ∧
      b ≤ wsRun (t.drop n) ∧
      1 ≤ c ∧ c ≤ nonNlRun ((t.drop n).drop b) ∧
      d ≤ wsRun (((t.drop n).drop b).drop c) ∧
      n ≤ eqRun ((((t.drop n).drop b).drop c).drop d) ∧
      f ≤ wsRun (((((t.drop n).drop b).drop c).drop d).drop n) ∧
      m = ⟨n + b + c + d + n + f, n, n + b, c⟩ := by
  unfold headerMatchAt at h
  obtain ⟨n, hn2, hn6, hn⟩ := tryDesc_eq_some h
  by_cases hcond : 2 ≤ n ∧ n ≤ eqRun t
  · rw [if_pos hcond] at hn
    obtain ⟨b, _, hb, hbn⟩ := tryDesc_eq_some hn
    obtain ⟨c, hc1, hc, hcn⟩ := tryAsc_eq_some hbn
    obtain ⟨d, _, hd, hdn⟩ := tryDesc_eq_some hcn
    by_cases hcond2 : n ≤ eqRun ((((t.drop n).drop b).drop c).drop d)
    · rw [if_pos hcond2] at hdn
      obtain ⟨f, _, hf, hfn⟩ := tryDesc_eq_some hdn
      by_cases hcond3 :
          (((((t.drop n).drop b).drop c).drop d).drop n).drop f = [] ∨
          ((((((t.drop n).drop b).drop c).drop d).drop n).drop f).head? = some '\n'
      · rw [if_pos hcond3] at hfn
        cases hfn
        exact ⟨n, b, c, d, f, hcond.1, hn6, hcond.2, hb, hc1, hc, hd, hcond2, hf, rfl⟩
      · rw [if_neg hcond3] at hfn
        cases hfn
    · rw [if_neg hcond2] at hdn
      cases hdn
  · rw [if_neg hcond] at hn
    cases hn

theorem headerMatchAt_len {t : List Char} {m : HMRaw}
    (h : headerMatchAt t = some m) : 5 ≤ m.len ∧ m.len ≤ t.length := by
  obtain ⟨n, b, c, d, f, hn2, _, hnr, hb, hc1, hc, hd, hnr2, hf, hm⟩ :=
    headerMatchAt_eq_some h
  have e1 : eqRun t ≤ t.length := runLen_le _ t
  have e2 := runLen_le isPySpace (t.drop n)
  have e3 := runLen_le (fun c => c != '\n') ((t.drop n).drop b)
  have e4 := runLen_le isPySpace (((t.drop n).drop b).drop c)
  have e5 := runLen_le (fun c => c == '=') ((((t.drop n).drop b).drop c).drop d)
  have e6 := runLen_le isPySpace (((((t.drop n).drop b).drop c).drop d).drop n)
  simp only [List.length_drop] at e2 e3 e4 e5 e6
  rw [show wsRun = runLen isPySpace from rfl] at hb hd hf
  rw [show nonNlRun = runLen (fun c => c != '\n') from rfl] at hc
  rw [show eqRun = runLen (fun c => c == '=') from rfl] at hnr hnr2
  subst hm
  simp only
  omega

/-!  ## The scanner produces a well-formed chain of matches  -/

theorem ChainOK.mono {doc : List Char} {lb lb' : Nat} (h : lb' ≤ lb) :
    ∀ {ms : List (Nat × HMRaw)}, ChainOK doc lb ms → ChainOK doc lb' ms := by
  intro ms hms
  cases ms with
  | nil => trivial
  | cons pm rest =>
    obtain ⟨h1, h2, h3⟩ := hms
    exact ⟨Nat.le_trans h h1, h2, h3⟩

theorem scanHeadersAux_chain (doc : List Char) :
    ∀ (fuel pos : Nat), ChainOK doc pos (scanHeadersAux doc fuel pos) := by
  intro fuel
  induction fuel with
  | zero => intro pos; trivial
  | succ fuel ih =>
    intro pos
    rw [scanHeadersAux]
    by_cases h1 : pos > doc.length
    · rw [if_pos h1]; trivial
    · rw [if_neg h1]
      by_cases h2 : lineStartAt doc pos = true
      · rw [if_pos h2]
        rcases hm : headerMatchAt (doc.drop pos) with _ | m
        · exact ChainOK.mono (Nat.le_succ pos) (ih (pos + 1))
        · exact ⟨Nat.le_refl pos, hm, ih (pos + m.len)⟩
      · rw [if_neg h2]
        exact ChainOK.mono (Nat.le_succ pos) (ih (pos + 1))

theorem scanHeaders_chain (doc : List Char) : ChainOK doc 0 (scanHeaders doc) :=
  scanHeadersAux_chain doc (doc.length + 1) 0

theorem chain_mem_lb {doc : List Char} :
    ∀ {ms : List (Nat × HMRaw)} {lb : Nat}, ChainOK doc lb ms →
      ∀ pm ∈ ms, lb ≤ pm.1 ∧ pm.1 + pm.2.len ≤ doc.length := by
  intro ms
  induction ms with
  | nil => intro lb _ pm hpm; cases hpm
  | cons hd rest ih =>
    intro lb hc pm hpm
    obtain ⟨h1, h2, h3⟩ := hc
    have hlen := headerMatchAt_len h2
    have hinb : hd.1 + hd.2.len ≤ doc.length := by
      have := hlen.2
      simp only [List.length_drop] at this
      have := hlen.1
      omega
    rcases hpm with _ | hpm
    · exact ⟨h1, hinb⟩
    · have := ih h3 pm (by assumption)
      constructor
      · have h5 := hlen.1
        omega
      · exact this.2

/-!  ## Slicing lemmas  -/

theorem take_drop_concat (l : List Char) (a k : Nat) :
    (l.drop a).take k ++ l.drop (a + k) = l.drop a := by
  have h : l.drop (a + k) = (l.drop a).drop k := by
    rw [List.drop_drop, Nat.add_comm]
  rw [h]
  exact List.take_append_drop _ _

theorem take_take_concat (l : List Char) (a k j : Nat) :
    (l.drop a).take k ++ (l.drop (a + k)).take j = (l.drop a).take (k + j) := by
  have h : l.drop (a + k) = (l.drop a).drop k := by
    rw [List.drop_drop, Nat.add_comm]
  rw [h, List.take_add]

/-!  ## Facts about the section list  -/

theorem mem_buildSections {doc : List Char} :
    ∀ {ms : List (Nat × HMRaw)} {s : PSection}, s ∈ buildSections doc ms →
      ∃ pm ∈ ms, s.start_pos = pm.1 ∧ s.content_start = pm.1 + pm.2.len := by
  intro ms
  induction ms with
  | nil => intro s h; simp [buildSections] at h
  | cons hd rest ih =>
    intro s h
    obtain ⟨p, m⟩ := hd
    rw [buildSections] at h
    rcases h with _ | h
    · exact ⟨(p, m), List.mem_cons_self _ _, rfl, rfl⟩
    · obtain ⟨pm, h1, h2⟩ := ih (by assumption)
      exact ⟨pm, List.mem_cons_of_mem _ h1, h2⟩

theorem buildSections_flatten (doc : List Char) :
    ∀ (ms : List (Nat × HMRaw)) (lb : Nat), ChainOK doc lb ms →
      ((buildSections doc ms).map (fun s => s.header_text ++ s.content)).flatten =
        (match ms with | [] => ([] : List Char) | (p, _) :: _ => doc.drop p) := by
  intro ms
  induction ms with
  | nil => intro lb _; simp [buildSections]
  | cons hd rest ih =>
    intro lb hc
    obtain ⟨p, m⟩ := hd
    obtain ⟨hlb, hm, hrest⟩ := hc
    have hlen := headerMatchAt_len hm
    have hbound : p + m.len ≤ doc.length := by
      have h1 := hlen.1; have h2 := hlen.2
      simp only [List.length_drop] at h2
      omega
    rcases rest with _ | ⟨⟨q, m2⟩, rest2⟩
    · simp only [buildSections, List.map_cons, List.map_nil, List.flatten_cons,
        List.flatten_nil, List.append_nil, sectionEnd]
      have hcl : (doc.drop (p + m.len)).take (doc.length - (p + m.len)) =
          doc.drop (p + m.len) := by
        rw [← List.length_drop, List.take_length]
      rw [hcl, take_drop_concat]
    · obtain ⟨hq, hm2, hrest2⟩ := hrest
      have ihr := ih (p + m.len)
        (show ChainOK doc (p + m.len) ((q, m2) :: rest2) from ⟨hq, hm2, hrest2⟩)
      simp only [buildSections, List.map_cons, List.flatten_cons, sectionEnd,
        List.append_assoc] at ihr ⊢
      rw [ihr, ← List.append_assoc, take_take_concat]
      have h2 : doc.drop q = doc.drop (p + (m.len + (q - (p + m.len)))) := by
        congr 1; omega
      rw [h2, take_drop_concat]

theorem buildSections_pairwise (doc : List Char) :
    ∀ (ms : List (Nat × HMRaw)) (lb : Nat), ChainOK doc lb ms →
      List.Pairwise (fun a b => a.end_pos ≤ b.start_pos ∧ a.start_pos < b.start_pos)
        (buildSections doc ms) := by
  intro ms
  induction ms with
  | nil => intro lb _; simp [buildSections]
  | cons hd rest ih =>
    intro lb hc
    obtain ⟨p, m⟩ := hd
    obtain ⟨hlb, hm, hrest⟩ := hc
    have hlen := headerMatchAt_len hm
    rw [buildSections]
    refine List.Pairwise.cons ?_ (ih (p + m.len) hrest)
    intro s' hs'
    rcases rest with _ | ⟨⟨q, m2⟩, rest2⟩
    · simp [buildSections] at hs'
    · obtain ⟨hq, hm2, hrest2⟩ := hrest
      obtain ⟨pm, hpm, hstart, _⟩ := mem_buildSections hs'
      have hql := chain_mem_lb
        (show ChainOK doc q ((q, m2) :: rest2) from ⟨Nat.le_refl _, hm2, hrest2⟩) pm hpm
      refine ⟨?_, ?_⟩
      · simp only [sectionEnd]
        omega
      · simp only
        have := hlen.1
        omega

theorem buildSections_wf (doc : List Char) :
    ∀ (ms : List (Nat × HMRaw)) (lb : Nat), ChainOK doc lb ms →
      ∀ s ∈ buildSections doc ms,
        s.start_pos < s.content_start ∧ s.content_start ≤ s.end_pos ∧
          s.end_pos ≤ doc.length := by
  intro ms
  induction ms with
  | nil => intro lb _ s hs; simp [buildSections] at hs
  | cons hd rest ih =>
    intro lb hc s hs
    obtain ⟨p, m⟩ := hd
    obtain ⟨hlb, hm, hrest⟩ := hc
    have hlen := headerMatchAt_len hm
    have hbound : p + m.len ≤ doc.length := by
      have h1 := hlen.1; have h2 := hlen.2
      simp only [List.length_drop] at h2
      omega
    rw [buildSections] at hs
    rcases hs with _ | hs
    · rcases rest with _ | ⟨⟨q, m2⟩, rest2⟩
      · refine ⟨?_, ?_, ?_⟩ <;> simp only [sectionEnd] <;>
          (have hx := hlen.1; omega)
      · obtain ⟨hq, hm2, hrest2⟩ := hrest
        have hq2 := (chain_mem_lb
          (show ChainOK doc (p + m.len) ((q, m2) :: rest2) from ⟨hq, hm2, hrest2⟩)
          (q, m2) (List.mem_cons_self _ _)).2
        have hlen2 := headerMatchAt_len hm2
        have hql : q ≤ doc.length := by
          have := hlen2.1
          omega
        refine ⟨?_, ?_, ?_⟩ <;> simp only [sectionEnd] <;>
          (have hx := hlen.1; omega)
    · exact ih (p + m.len) hrest s (by assumption)

/-!  ## Unfolding the editor's branches  -/

theorem add_eq_none_of_audio {doc : List Char} (f : List Char)
    (h : page_has_audio doc = true) : add_pronunciation_to_page doc f = none := by
  simp [add_pronunciation_to_page, h]

theorem add_existing_section {doc f : List Char} {sec : PSection}
    (h1 : page_has_audio doc = false)
    (h2 : find_pronunciation_section (parse_sections doc) = some sec) :
    add_pronunciation_to_page doc f =
      some (doc.take (sec.content_start + nlRun (doc.drop sec.content_start)) ++
        build_audio_line f ++
        '\n' :: doc.drop (sec.content_start + nlRun (doc.drop sec.content_start))) := by
  simp [add_pronunciation_to_page, h1, h2]

theorem add_no_sections {doc f : List Char}
    (h1 : page_has_audio doc = false)
    (h2 : parse_sections doc = []) :
    add_pronunciation_to_page doc f =
      some (pyRstripNl doc ++ '\n' :: newSectionText f ++ ['\n']) := by
  simp [add_pronunciation_to_page, h1, h2, find_pronunciation_section]

theorem add_before_first {doc f : List Char} {s0 : PSection} {rest : List PSection}
    (h1 : page_has_audio doc = false)
    (h2 : find_pronunciation_section (parse_sections doc) = none)
    (h3 : parse_sections doc = s0 :: rest) :
    add_pronunciation_to_page doc f =
      if pyRstripNl (doc.take s0.start_pos) = [] then
        some (newSectionText f ++ '\n' :: doc.drop s0.start_pos)
      else
        some (pyRstripNl (doc.take s0.start_pos) ++ '\n' :: newSectionText f ++
          '\n' :: doc.drop s0.start_pos) := by
  rw [h3] at h2
  simp only [add_pronunciation_to_page, h1, Bool.false_eq_true, if_false, h2, h3]

/-!  ## Claim theorems  -/

/-- Claim C1: whenever the audio-presence detector reports an existing
audio construct (`page_has_audio doc = true`), the pronunciation editor
returns the no-change sentinel (`none`) for every filename, regardless of
the document's section structure. -/
theorem claim_C1_audio_guard (doc f : List Char)
    (h : page_has_audio doc = true) :
    add_pronunciation_to_page doc f = none :=
  add_eq_none_of_audio f h

/-- Witness for C1 at a concrete document that contains an audio construct. -/
theorem claim_C1_audio_guard_witness :
    page_has_audio "x\x7b\x7baudio|y".data = true ∧
      add_pronunciation_to_page "x\x7b\x7baudio|y".data "a.wav".data = none :=
  ⟨by decide, claim_C1_audio_guard _ _ (by decide)⟩

/-- Claim C2: for every document, the preamble (text before the first
parsed section's start) followed by each section's header text and
content, in order, reproduces the document exactly; the sections are in
document order and their spans are disjoint and within bounds. -/
theorem claim_C2_round_trip (doc : List Char) :
    sectionsPreamble doc (parse_sections doc) ++
      ((parse_sections doc).map (fun s => s.header_text ++ s.content)).flatten = doc ∧
    List.Pairwise (fun a b => a.end_pos ≤ b.start_pos ∧ a.start_pos < b.start_pos)
      (parse_sections doc) ∧
    ∀ s ∈ parse_sections doc, s.start_pos < s.content_start ∧
      s.content_start ≤ s.end_pos ∧ s.end_pos ≤ doc.length := by
  have hchain := scanHeaders_chain doc
  have hps : parse_sections doc = buildSections doc (scanHeaders doc) := rfl
  refine ⟨?_, ?_, ?_⟩
  · rcases hms : scanHeaders doc with _ | ⟨⟨p, m⟩, rest⟩
    · rw [hps, hms]
      simp [buildSections, sectionsPreamble]
    · rw [hms] at hchain
      have hj : ((buildSections doc ((p, m) :: rest)).map
          (fun s => s.header_text ++ s.content)).flatten = doc.drop p :=
        buildSections_flatten doc ((p, m) :: rest) 0 hchain
      rw [hps, hms]
      have hpre : sectionsPreamble doc (buildSections doc ((p, m) :: rest)) =
          doc.take p := rfl
      rw [hpre, hj]
      exact List.take_append_drop p doc
  · rw [hps]
    exact buildSections_pairwise doc _ 0 hchain
  · rw [hps]
    exact buildSections_wf doc _ 0 hchain

/-- Witness for C2 at a concrete two-section document with a preamble. -/
theorem claim_C2_round_trip_witness :
    sectionsPreamble "pre\n==A==\nx\n===B===\ny".data
        (parse_sections "pre\n==A==\nx\n===B===\ny".data) ++
      ((parse_sections "pre\n==A==\nx\n===B===\ny".data).map
        (fun s => s.header_text ++ s.content)).flatten =
      "pre\n==A==\nx\n===B===\ny".data :=
  (claim_C2_round_trip _).1

/-- Claim C7: the core is total on arbitrary string inputs: the editor
returns the no-change sentinel exactly when the audio guard fires and a
complete new document otherwise, and the filename parser always returns
either a structured match or the no-match sentinel. -/
theorem claim_C7_total (doc f s : List Char) :
    (add_pronunciation_to_page doc f = none ↔ page_has_audio doc = true) ∧
    (llFilenameMatch s = none ∨ ∃ r, llFilenameMatch s = some r) := by
  constructor
  · constructor
    · intro h
      by_contra hb
      have h1 : page_has_audio doc = false := by
        cases hpa : page_has_audio doc
        · rfl
        · exact absurd hpa hb
      rcases hfind : find_pronunciation_section (parse_sections doc) with _ | sec
      · rcases hsec : parse_sections doc with _ | ⟨s0, rest⟩
        · rw [add_no_sections h1 hsec] at h
          cases h
        · rw [add_before_first h1 hfind hsec] at h
          by_cases hp : pyRstripNl (doc.take s0.start_pos) = []
          · rw [if_pos hp] at h; cases h
          · rw [if_neg hp] at h; cases h
      · rw [add_existing_section h1 hfind] at h
        cases h
    · intro h
      exact add_eq_none_of_audio f h
  · cases hr : llFilenameMatch s
    · exact Or.inl rfl
    · exact Or.inr ⟨_, rfl⟩

/-- Claim C3: when the audio guard is off and a section titled exactly
with the pronunciation header exists, the editor returns the original
document with exactly one audio line inserted right after that section's
header, after skipping the newline run that follows the header (so the
audio line lands before the first non-blank content); every other byte is
unchanged and in its original order. -/
theorem claim_C3_insert_in_existing (doc f : List Char) (sec : PSection)
    (h1 : page_has_audio doc = false)
    (h2 : find_pronunciation_section (parse_sections doc) = some sec) :
    ∃ ip, sec.content_start ≤ ip ∧
      (∀ j, sec.content_start ≤ j → j < ip → doc[j]? = some '\n') ∧
      doc[ip]? ≠ some '\n' ∧
      add_pronunciation_to_page doc f =
        some (doc.take ip ++ build_audio_line f ++ '\n' :: doc.drop ip) := by
  refine ⟨sec.content_start + nlRun (doc.drop sec.content_start), by omega, ?_, ?_,
    add_existing_section h1 h2⟩
  · intro j hj1 hj2
    have hi : j - sec.content_start < runLen (fun c => c == '\n')
        (doc.drop sec.content_start) := by
      have : nlRun (doc.drop sec.content_start) =
          runLen (fun c => c == '\n') (doc.drop sec.content_start) := rfl
      omega
    obtain ⟨c, hc, hpc⟩ := runLen_sat _ _ _ hi
    rw [List.getElem?_drop] at hc
    rw [show sec.content_start + (j - sec.content_start) = j by omega] at hc
    have hcn : c = '\n' := by simpa using hpc
    rw [hc, hcn]
  · intro hcon
    have hstep : (doc.drop sec.content_start)[nlRun (doc.drop sec.content_start)]? =
        some '\n' := by
      rw [List.getElem?_drop]
      exact hcon
    have := runLen_stop (fun c => c == '\n') (doc.drop sec.content_start) '\n' hstep
    simp at this

/-- Witness for C3 at a document whose only section is the pronunciation
section. -/
theorem claim_C3_insert_in_existing_witness :
    page_has_audio "==ഉച്ചാരണം==\nx".data = false ∧
      find_pronunciation_section (parse_sections "==ഉച്ചാരണം==\nx".data) =
        some ⟨2, "ഉച്ചാരണം".data, "==ഉച്ചാരണം==".data, 0, 12, 14, "\nx".data⟩ ∧
      (∃ ip,
        (⟨2, "ഉച്ചാരണം".data, "==ഉച്ചാരണം==".data, 0, 12, 14,
          "\nx".data⟩ : PSection).content_start ≤ ip ∧
        (∀ j, (⟨2, "ഉച്ചാരണം".data, "==ഉച്ചാരണം==".data, 0, 12, 14,
          "\nx".data⟩ : PSection).content_start ≤ j → j < ip →
            "==ഉച്ചാരണം==\nx".data[j]? = some '\n') ∧
        "==ഉച്ചാരണം==\nx".data[ip]? ≠ some '\n' ∧
        add_pronunciation_to_page "==ഉച്ചാരണം==\nx".data "a.wav".data =
          some ("==ഉച്ചാരണം==\nx".data.take ip ++ build_audio_line "a.wav".data ++
            '\n' :: "==ഉച്ചാരണം==\nx".data.drop ip)) :=
  ⟨by decide, by decide,
    claim_C3_insert_in_existing _ _ _ (by decide) (by decide)⟩

/-!  ## The audio detector fires on any inserted audio line  -/

theorem searchAudio_append_pat :
    ∀ (s t : List Char), searchAudio (s ++ ("\x7b\x7baudio|".data ++ t)) = true := by
  intro s
  induction s with
  | nil =>
    intro t
    show searchAudio ('\x7b' :: '\x7b' :: 'a' :: 'u' :: 'd' :: 'i' :: 'o' :: '|' :: t) = true
    rw [searchAudio]
    rw [show audioPrefixAt ('\x7b' :: '\x7b' :: 'a' :: 'u' :: 'd' :: 'i' :: 'o' :: '|' :: t)
      = true from rfl]
    rfl
  | cons c s ih =>
    intro t
    show searchAudio (c :: (s ++ ("\x7b\x7baudio|".data ++ t))) = true
    rw [searchAudio, ih t, Bool.or_true]

theorem searchAudio_around_audio_line (u f v : List Char) :
    searchAudio (u ++ (build_audio_line f ++ v)) = true := by
  have hsplit : build_audio_line f =
      "* ശബ്ദം: ".data ++ ("\x7b\x7baudio|".data ++ (f ++ "\x7d\x7d".data)) := by
    rw [build_audio_line]
    rw [show ": \x7b\x7baudio|".data = ": ".data ++ "\x7b\x7baudio|".data from rfl]
    simp [AUDIO_LABEL, List.append_assoc]
  rw [hsplit]
  rw [show u ++ ("* ശബ്ദം: ".data ++ ("\x7b\x7baudio|".data ++ (f ++ "\x7d\x7d".data)) ++ v)
      = (u ++ "* ശബ്ദം: ".data) ++ ("\x7b\x7baudio|".data ++ ((f ++ "\x7d\x7d".data) ++ v))
    by simp [List.append_assoc]]
  exact searchAudio_append_pat _ _

theorem searchAudio_parts {l : List Char} (u f v : List Char)
    (h : l = u ++ (build_audio_line f ++ v)) : searchAudio l = true := by
  rw [h]
  exact searchAudio_around_audio_line u f v

theorem add_output_has_audio {doc f out : List Char}
    (h : add_pronunciation_to_page doc f = some out) :
    page_has_audio out = true := by
  have h1 : page_has_audio doc = false := by
    cases hpa : page_has_audio doc
    · rfl
    · rw [add_eq_none_of_audio f hpa] at h; cases h
  rcases hfind : find_pronunciation_section (parse_sections doc) with _ | sec
  · rcases hsec : parse_sections doc with _ | ⟨s0, rest⟩
    · rw [add_no_sections h1 hsec] at h
      cases h
      exact searchAudio_parts (pyRstripNl doc ++ '\n' :: '\n' :: pronHeaderLine ++ ['\n'])
        f ['\n', '\n'] (by simp [newSectionText, List.append_assoc])
    · rw [add_before_first h1 hfind hsec] at h
      by_cases hp : pyRstripNl (doc.take s0.start_pos) = []
      · rw [if_pos hp] at h
        cases h
        exact searchAudio_parts ('\n' :: pronHeaderLine ++ ['\n']) f
          ('\n' :: '\n' :: doc.drop s0.start_pos)
          (by simp [newSectionText, List.append_assoc])
      · rw [if_neg hp] at h
        cases h
        exact searchAudio_parts
          (pyRstripNl (doc.take s0.start_pos) ++ '\n' :: '\n' :: pronHeaderLine ++ ['\n'])
          f ('\n' :: '\n' :: doc.drop s0.start_pos)
          (by simp [newSectionText, List.append_assoc])
  · rw [add_existing_section h1 hfind] at h
    cases h
    exact searchAudio_parts
      (doc.take (sec.content_start + nlRun (doc.drop sec.content_start))) f
      ('\n' :: doc.drop (sec.content_start + nlRun (doc.drop sec.content_start)))
      (by simp [List.append_assoc])

/-- Claim C6: the pronunciation editor is idempotent — whenever it
produces a new document, the inserted audio line is itself recognized by
the audio-presence detector, so a second application (with any filename)
returns the no-change sentinel. -/
theorem claim_C6_idempotent (doc f f' out : List Char)
    (h : add_pronunciation_to_page doc f = some out) :
    add_pronunciation_to_page out f' = none :=
  add_eq_none_of_audio f' (add_output_has_audio h)

/-- Witness for C6: one concrete application followed by a second one. -/
theorem claim_C6_idempotent_witness :
    add_pronunciation_to_page "x".data "a.wav".data =
      some "x\n\n==ഉച്ചാരണം==\n* ശബ്ദം: \x7b\x7baudio|a.wav\x7d\x7d\n\n".data ∧
    add_pronunciation_to_page
      "x\n\n==ഉച്ചാരണം==\n* ശബ്ദം: \x7b\x7baudio|a.wav\x7d\x7d\n\n".data
      "b.ogg".data = none :=
  ⟨by decide,
    claim_C6_idempotent "x".data "a.wav".data "b.ogg".data
      "x\n\n==ഉച്ചാരണം==\n* ശബ്ദം: \x7b\x7baudio|a.wav\x7d\x7d\n\n".data (by decide)⟩

/-- Witness for C7 at concrete inputs. -/
theorem claim_C7_total_witness :
    (add_pronunciation_to_page "x".data "a.wav".data = none ↔
      page_has_audio "x".data = true) ∧
    (llFilenameMatch "b".data = none ∨ ∃ r, llFilenameMatch "b".data = some r) :=
  claim_C7_total "x".data "a.wav".data "b".data

/-- Claim C8: for a document with no sections and no audio construct, the
editor appends the new pronunciation section after the content stripped
of its trailing newlines, separated from it by exactly one blank line
(two newline characters) and followed by a trailing blank line. -/
theorem claim_C8_no_sections (doc f : List Char)
    (h1 : parse_sections doc = [])
    (h2 : page_has_audio doc = false) :
    add_pronunciation_to_page doc f =
      some (pyRstripNl doc ++ '\n' :: '\n' ::
        (pronHeaderLine ++ '\n' :: (build_audio_line f ++ ['\n', '\n']))) := by
  rw [add_no_sections h2 h1]
  congr 1
  simp [newSectionText, List.append_assoc]

/-- Witness for C8 at a sectionless document. -/
theorem claim_C8_no_sections_witness :
    parse_sections "x".data = [] ∧ page_has_audio "x".data = false ∧
      add_pronunciation_to_page "x".data "a.wav".data =
        some (pyRstripNl "x".data ++ '\n' :: '\n' ::
          (pronHeaderLine ++ '\n' :: (build_audio_line "a.wav".data ++ ['\n', '\n']))) :=
  ⟨by decide, by decide, claim_C8_no_sections _ _ (by decide) (by decide)⟩

/-- Counterexample to C9 as stated: for the document `"p\n==A==\nx"`
(nonempty preamble `"p\n"`), the output is not
trimmed-preamble ++ one newline ++ (header line + audio line) ++ one
newline ++ rest — there are two newlines (a blank line) after the
trimmed preamble, not one. -/
theorem claim_C9_counterexample :
    add_pronunciation_to_page "p\n==A==\nx".data "a.wav".data =
      some "p\n\n==ഉച്ചാരണം==\n* ശബ്ദം: \x7b\x7baudio|a.wav\x7d\x7d\n\n==A==\nx".data ∧
    some "p\n\n==ഉച്ചാരണം==\n* ശബ്ദം: \x7b\x7baudio|a.wav\x7d\x7d\n\n==A==\nx".data ≠
      some (pyRstripNl "p\n".data ++ '\n' ::
        ((pronHeaderLine ++ '\n' :: build_audio_line "a.wav".data ++ ['\n']) ++
          '\n' :: "==A==\nx".data)) := by
  constructor
  · decide
  · decide

/-- Claim C9 (amended): for a document with at least one section, no
pronunciation section and no audio: if the preamble trimmed of trailing
newlines is nonempty, the output is the trimmed preamble, a blank line
(two newlines), the new section (header line, newline, audio line,
newline), one further newline, then the original content from the first
header; if the trimmed preamble is empty, the output starts with a single
newline before the new section instead. -/
theorem claim_C9_amended (doc f : List Char) (s0 : PSection) (rest : List PSection)
    (h1 : page_has_audio doc = false)
    (h2 : find_pronunciation_section (parse_sections doc) = none)
    (h3 : parse_sections doc = s0 :: rest) :
    (pyRstripNl (doc.take s0.start_pos) ≠ [] →
      add_pronunciation_to_page doc f =
        some (pyRstripNl (doc.take s0.start_pos) ++ '\n' :: '\n' ::
          (pronHeaderLine ++ '\n' :: (build_audio_line f ++
            '\n' :: '\n' :: doc.drop s0.start_pos)))) ∧
    (pyRstripNl (doc.take s0.start_pos) = [] →
      add_pronunciation_to_page doc f =
        some ('\n' :: (pronHeaderLine ++ '\n' :: (build_audio_line f ++
          '\n' :: '\n' :: doc.drop s0.start_pos)))) := by
  have hb := add_before_first (f := f) h1 h2 h3
  constructor
  · intro hne
    rw [hb, if_neg hne]
    congr 1
    simp [newSectionText, List.append_assoc]
  · intro he
    rw [hb, if_pos he]
    congr 1
    simp [newSectionText, List.append_assoc]

/-- Witness for the amended C9 at a document with a nonempty preamble. -/
theorem claim_C9_amended_witness :
    page_has_audio "p\n==A==\nx".data = false ∧
    find_pronunciation_section (parse_sections "p\n==A==\nx".data) = none ∧
    parse_sections "p\n==A==\nx".data =
      [⟨2, "A".data, "==A==".data, 2, 7, 9, "\nx".data⟩] ∧
    ((pyRstripNl ("p\n==A==\nx".data.take
        (⟨2, "A".data, "==A==".data, 2, 7, 9, "\nx".data⟩ : PSection).start_pos) ≠ [] →
      add_pronunciation_to_page "p\n==A==\nx".data "a.wav".data =
        some (pyRstripNl ("p\n==A==\nx".data.take
            (⟨2, "A".data, "==A==".data, 2, 7, 9, "\nx".data⟩ : PSection).start_pos) ++
          '\n' :: '\n' :: (pronHeaderLine ++ '\n' :: (build_audio_line "a.wav".data ++
            '\n' :: '\n' :: "p\n==A==\nx".data.drop
              (⟨2, "A".data, "==A==".data, 2, 7, 9, "\nx".data⟩ : PSection).start_pos)))) ∧
    (pyRstripNl ("p\n==A==\nx".data.take
        (⟨2, "A".data, "==A==".data, 2, 7, 9, "\nx".data⟩ : PSection).start_pos) = [] →
      add_pronunciation_to_page "p\n==A==\nx".data "a.wav".data =
        some ('\n' :: (pronHeaderLine ++ '\n' :: (build_audio_line "a.wav".data ++
          '\n' :: '\n' :: "p\n==A==\nx".data.drop
            (⟨2, "A".data, "==A==".data, 2, 7, 9, "\nx".data⟩ : PSection).start_pos))))) :=
  ⟨by decide, by decide, by decide,
    claim_C9_amended "p\n==A==\nx".data "a.wav".data
      ⟨2, "A".data, "==A==".data, 2, 7, 9, "\nx".data⟩ []
      (by decide) (by decide) (by decide)⟩

/-- Claim C4: when no audio is present and no pronunciation-titled
section exists, the output contains the newly synthesized pronunciation
header, and for every pre-existing section the original text from that
section's start reappears at a strictly later position than the new
header — unconditionally (in particular even when an Etymology-titled
section exists, which the editor never consults). -/
theorem claim_C4_pron_first (doc f : List Char)
    (h1 : page_has_audio doc = false)
    (h2 : find_pronunciation_section (parse_sections doc) = none) :
    ∃ out, add_pronunciation_to_page doc f = some out ∧
      ∃ hp, (out.drop hp).take pronHeaderLine.length = pronHeaderLine ∧
        ∀ s ∈ parse_sections doc, ∃ k, hp < k ∧
          out.drop k = doc.drop s.start_pos := by
  rcases hsec : parse_sections doc with _ | ⟨s0, rest⟩
  · refine ⟨_, add_no_sections h1 hsec, (pyRstripNl doc ++ ['\n', '\n']).length, ?_, ?_⟩
    · have hshape : pyRstripNl doc ++ '\n' :: newSectionText f ++ ['\n'] =
          (pyRstripNl doc ++ ['\n', '\n']) ++ (pronHeaderLine ++
            '\n' :: (build_audio_line f ++ ['\n', '\n'])) := by
        simp [newSectionText, List.append_assoc]
      rw [hshape, List.drop_left, List.take_left' rfl]
    · intro s hs
      cases hs
  · have hpw : List.Pairwise
        (fun a b => a.end_pos ≤ b.start_pos ∧ a.start_pos < b.start_pos)
        (parse_sections doc) :=
      buildSections_pairwise doc (scanHeaders doc) 0 (scanHeaders_chain doc)
    rw [hsec, List.pairwise_cons] at hpw
    have hmono : ∀ s ∈ s0 :: rest, s0.start_pos ≤ s.start_pos := by
      intro s hs
      rcases hs with _ | hs
      · exact Nat.le_refl _
      · exact Nat.le_of_lt (hpw.1 s (by assumption)).2
    have hadd := add_before_first (f := f) h1 h2 hsec
    by_cases hp : pyRstripNl (doc.take s0.start_pos) = []
    · rw [if_pos hp] at hadd
      refine ⟨_, hadd, ['\n'].length, ?_, ?_⟩
      · have hshape : newSectionText f ++ '\n' :: doc.drop s0.start_pos =
            ['\n'] ++ (pronHeaderLine ++
              '\n' :: (build_audio_line f ++ '\n' :: '\n' :: doc.drop s0.start_pos)) := by
          simp [newSectionText, List.append_assoc]
        rw [hshape, List.drop_left, List.take_left' rfl]
      · intro s hs
        have hshape : newSectionText f ++ '\n' :: doc.drop s0.start_pos =
            ('\n' :: (pronHeaderLine ++ '\n' :: (build_audio_line f ++ ['\n', '\n']))) ++
              doc.drop s0.start_pos := by
          simp [newSectionText, List.append_assoc]
        refine ⟨('\n' :: (pronHeaderLine ++ '\n' ::
          (build_audio_line f ++ ['\n', '\n']))).length +
            (s.start_pos - s0.start_pos), ?_, ?_⟩
        · simp [pronHeaderLine, PRONUNCIATION_HEADER, build_audio_line, AUDIO_LABEL]
          omega
        · rw [hshape, ← List.drop_drop, List.drop_left, List.drop_drop]
          congr 1
          have := hmono s hs
          omega
    · rw [if_neg hp] at hadd
      refine ⟨_, hadd, (pyRstripNl (doc.take s0.start_pos) ++ ['\n', '\n']).length, ?_, ?_⟩
      · have hshape : pyRstripNl (doc.take s0.start_pos) ++ '\n' :: newSectionText f ++
            '\n' :: doc.drop s0.start_pos =
            (pyRstripNl (doc.take s0.start_pos) ++ ['\n', '\n']) ++ (pronHeaderLine ++
              '\n' :: (build_audio_line f ++ '\n' :: '\n' :: doc.drop s0.start_pos)) := by
          simp [newSectionText, List.append_assoc]
        rw [hshape, List.drop_left, List.take_left' rfl]
      · intro s hs
        have hshape : pyRstripNl (doc.take s0.start_pos) ++ '\n' :: newSectionText f ++
            '\n' :: doc.drop s0.start_pos =
            (pyRstripNl (doc.take s0.start_pos) ++ '\n' :: '\n' :: (pronHeaderLine ++
              '\n' :: (build_audio_line f ++ ['\n', '\n']))) ++
              doc.drop s0.start_pos := by
          simp [newSectionText, List.append_assoc]
        refine ⟨(pyRstripNl (doc.take s0.start_pos) ++ '\n' :: '\n' :: (pronHeaderLine ++
          '\n' :: (build_audio_line f ++ ['\n', '\n']))).length +
            (s.start_pos - s0.start_pos), ?_, ?_⟩
        · simp [pronHeaderLine, PRONUNCIATION_HEADER, build_audio_line, AUDIO_LABEL]
          omega
        · rw [hshape, ← List.drop_drop, List.drop_left, List.drop_drop]
          congr 1
          have := hmono s hs
          omega

/-- Witness for C4 at a document with two plain sections. -/
theorem claim_C4_pron_first_witness :
    page_has_audio "==A==\nx\n==B==\ny".data = false ∧
    find_pronunciation_section (parse_sections "==A==\nx\n==B==\ny".data) = none ∧
    (∃ out, add_pronunciation_to_page "==A==\nx\n==B==\ny".data "a.wav".data = some out ∧
      ∃ hp, (out.drop hp).take pronHeaderLine.length = pronHeaderLine ∧
        ∀ s ∈ parse_sections "==A==\nx\n==B==\ny".data, ∃ k, hp < k ∧
          out.drop k = "==A==\nx\n==B==\ny".data.drop s.start_pos) :=
  ⟨by decide, by decide,
    claim_C4_pron_first "==A==\nx\n==B==\ny".data "a.wav".data (by decide) (by decide)⟩

/-!  ## First-success characterization of the backtracking searches  -/

theorem runLen_all (p : Char → Bool) :
    ∀ l : List Char, (∀ c ∈ l, p c = true) → runLen p l = l.length := by
  intro l
  induction l with
  | nil => intro _; rfl
  | cons c cs ih =>
    intro h
    have hc := h c (List.mem_cons_self _ _)
    simp only [runLen, hc, if_true, List.length_cons]
    rw [ih (fun d hd => h d (List.mem_cons_of_mem _ hd))]

theorem tryAscAux_first {α : Type} {g : Nat → Option α} {j : Nat} {v : α}
    (hj : g j = some v) :
    ∀ {k lo : Nat}, lo ≤ j → j < lo + k → (∀ i, lo ≤ i → i < j → g i = none) →
      tryAscAux g lo k = some v := by
  intro k
  induction k with
  | zero => intro lo h1 h2 _; omega
  | succ k ih =>
    intro lo h1 h2 hnone
    rw [tryAscAux]
    by_cases hlo : lo = j
    · subst hlo
      rw [hj]
    · have hg : g lo = none := hnone lo (Nat.le_refl _) (by omega)
      rw [hg]
      exact ih (by omega) (by omega) (fun i hi1 hi2 => hnone i (by omega) hi2)

theorem tryDescAux_first {α : Type} {g : Nat → Option α} {j : Nat} {v : α}
    (hj : g j = some v) :
    ∀ {k lo : Nat}, lo ≤ j → j < lo + k → (∀ i, j < i → i < lo + k → g i = none) →
      tryDescAux g lo k = some v := by
  intro k
  induction k with
  | zero => intro lo h1 h2 _; omega
  | succ k ih =>
    intro lo h1 h2 hnone
    rw [tryDescAux]
    by_cases hk : lo + k = j
    · rw [hk, hj]
    · have hg : g (lo + k) = none := hnone (lo + k) (by omega) (by omega)
      rw [hg]
      exact ih h1 (by omega) (fun i hi1 hi2 => hnone i hi1 (by omega))

theorem tryAsc_first {α : Type} {g : Nat → Option α} {j lo hi : Nat} {v : α}
    (hj : g j = some v) (h1 : lo ≤ j) (h2 : j ≤ hi)
    (hnone : ∀ i, lo ≤ i → i < j → g i = none) : tryAsc g lo hi = some v :=
  tryAscAux_first hj h1 (by omega) hnone

theorem tryDesc_first {α : Type} {g : Nat → Option α} {j lo hi : Nat} {v : α}
    (hj : g j = some v) (h1 : lo ≤ j) (h2 : j ≤ hi)
    (hnone : ∀ i, j < i → i ≤ hi → g i = none) : tryDesc g lo hi = some v :=
  tryDescAux_first hj h1 (by omega) (fun i hi1 hi2 => hnone i hi1 (by omega))

/-!  ## The filename parser on a well-formed prefix  -/

theorem llFilenameMatch_canonical (m : List Char) :
    llFilenameMatch ("LL-Q36236 (mal)-".data ++ m) =
      tryAsc (llSpeakerLoop m) 1 (nonNlRun m) := rfl

/-- Counterexample to C5 as stated: on `"LL-Q36236 (mal)-A-B-C.wav"` the
parser captures speaker `"A"` and word `"B-C"` (shortest speaker,
longest word), not speaker `"A-B"` and word `"C"` as the last-dash split
would give. -/
theorem claim_C5_counterexample :
    llFilenameMatch "LL-Q36236 (mal)-A-B-C.wav".data =
      some ⟨"A".data, "B-C".data, "wav".data⟩ ∧
    llFilenameMatch "LL-Q36236 (mal)-A-B-C.wav".data ≠
      some ⟨"A-B".data, "C".data, "wav".data⟩ :=
  ⟨by decide, by decide⟩

/-- Claim C5 (amended): for a filename of the convention with an
ambiguous middle part `a-r` (where `a` is the dash-free first component),
the parser splits at the first `-` after the prefix: the speaker capture
is the shortest prefix followed by `-` that lets the rest match, and the
word capture is the whole remainder before the extension. -/
theorem claim_C5_amended (a r : List Char)
    (ha : a ≠ []) (hr : r ≠ [])
    (haC : ∀ c ∈ a, c ≠ '-' ∧ c ≠ '\n')
    (hrC : ∀ c ∈ r, c ≠ '\n') :
    llFilenameMatch ("LL-Q36236 (mal)-".data ++ (a ++ '-' :: (r ++ ".wav".data))) =
      some ⟨a, r, "wav".data⟩ := by
  rw [llFilenameMatch_canonical]
  have hRnl : ∀ c ∈ r ++ ".wav".data, (c != '\n') = true := by
    intro c hc
    rcases List.mem_append.1 hc with hc | hc
    · simpa using hrC c hc
    · fin_cases hc <;> decide
  have hRlen : nonNlRun (r ++ ".wav".data) = r.length + 4 := by
    have := runLen_all (fun c => c != '\n') (r ++ ".wav".data) hRnl
    simpa using this
  have hMnl : ∀ c ∈ a ++ '-' :: (r ++ ".wav".data), (c != '\n') = true := by
    intro c hc
    rcases List.mem_append.1 hc with hc | hc
    · simpa using (haC c hc).2
    · rcases hc with _ | hc
      · decide
      · exact hRnl c (by assumption)
  have hMlen : nonNlRun (a ++ '-' :: (r ++ ".wav".data)) =
      a.length + r.length + 5 := by
    have := runLen_all (fun c => c != '\n') (a ++ '-' :: (r ++ ".wav".data)) hMnl
    simp at this
    rw [show nonNlRun = runLen (fun c => c != '\n') from rfl, this]
    omega
  -- the word loop succeeds with the whole of `r` as the word
  have hword : llWordLoop a (r ++ ".wav".data) = some ⟨a, r, "wav".data⟩ := by
    rw [llWordLoop]
    refine tryDesc_first (j := r.length) ?_ ?_ ?_ ?_
    · rw [List.drop_left, List.take_left]
      rfl
    · have : 0 < r.length := List.length_pos.2 hr
      omega
    · omega
    · intro i hi1 hi2
      rw [hRlen] at hi2
      have hdropi : (r ++ ".wav".data).drop i = ".wav".data.drop (i - r.length) := by
        rw [show i = r.length + (i - r.length) by omega, ← List.drop_drop,
          List.drop_left]
        congr 1
        omega
      have : i - r.length = 1 ∨ i - r.length = 2 ∨ i - r.length = 3 ∨
          i - r.length = 4 := by omega
      rcases this with h | h | h | h <;> rw [hdropi, h] <;> rfl
  -- the speaker loop fails for every extent shorter than `a`
  have hnone : ∀ i, 1 ≤ i → i < a.length →
      llSpeakerLoop (a ++ '-' :: (r ++ ".wav".data)) i = none := by
    intro i _ hi
    rw [llSpeakerLoop]
    have hdropi : (a ++ '-' :: (r ++ ".wav".data)).drop i =
        a[i] :: (a.drop (i + 1) ++ '-' :: (r ++ ".wav".data)) := by
      rw [List.drop_append_of_le_length (by omega)]
      rw [List.drop_eq_getElem_cons hi]
      rfl
    rw [hdropi]
    have hne : a[i] ≠ '-' := (haC a[i] (List.getElem_mem hi)).1
    split
    · rename_i h
      injection h with h1 _
      exact absurd h1 hne
    · rfl
  -- the speaker loop succeeds at extent `a.length`
  have hsome : llSpeakerLoop (a ++ '-' :: (r ++ ".wav".data)) a.length =
      some ⟨a, r, "wav".data⟩ := by
    rw [llSpeakerLoop, List.drop_left, List.take_left]
    exact hword
  refine tryAsc_first hsome ?_ ?_ hnone
  · exact List.length_pos.2 ha
  · rw [hMlen]
    omega

/-!  ## Characterizing the audio detector  -/

theorem ciEq_a_not_space {c : Char} (h : ciEq c 'a' = true) :
    isPySpace c = false := by
  simp only [ciEq, Bool.or_eq_true, Bool.and_eq_true, beq_iff_eq] at h
  rcases h with (h | h) | h
  · rw [h]; decide
  · rw [h]; decide
  · exact absurd h.1 (by decide)

theorem pipeAfterWs_build {w2 v : List Char}
    (hw2 : ∀ c ∈ w2, isPySpace c = true) :
    pipeAfterWs (w2 ++ '|' :: v) = true := by
  have hdb : (w2 ++ '|' :: v).dropWhile isPySpace = '|' :: v := by
    rw [List.dropWhile_append, List.dropWhile_eq_nil_iff.2 hw2]
    simp only [List.isEmpty_nil, if_true]
    rw [List.dropWhile_cons_of_neg (by decide)]
  unfold pipeAfterWs
  rw [hdb]
  rfl

theorem audioTail_build {w1 w2 v : List Char} {c1 c2 c3 c4 c5 : Char}
    (hw1 : ∀ c ∈ w1, isPySpace c = true) (hw2 : ∀ c ∈ w2, isPySpace c = true)
    (h1 : ciEq c1 'a' = true) (h2 : ciEq c2 'u' = true) (h3 : ciEq c3 'd' = true)
    (h4 : ciEq c4 'i' = true) (h5 : ciEq c5 'o' = true) :
    audioTail (w1 ++ c1 :: c2 :: c3 :: c4 :: c5 :: (w2 ++ '|' :: v)) = true := by
  have hda : (w1 ++ c1 :: c2 :: c3 :: c4 :: c5 :: (w2 ++ '|' :: v)).dropWhile isPySpace
      = c1 :: c2 :: c3 :: c4 :: c5 :: (w2 ++ '|' :: v) := by
    rw [List.dropWhile_append, List.dropWhile_eq_nil_iff.2 hw1]
    simp only [List.isEmpty_nil, if_true]
    rw [List.dropWhile_cons_of_neg (by simp [ciEq_a_not_space h1])]
  unfold audioTail
  rw [hda]
  show (ciEq c1 'a' && ciEq c2 'u' && ciEq c3 'd' && ciEq c4 'i' && ciEq c5 'o' &&
    pipeAfterWs (w2 ++ '|' :: v)) = true
  rw [h1, h2, h3, h4, h5, pipeAfterWs_build hw2]
  rfl

theorem audioTail_decomp {rest : List Char} (h : audioTail rest = true) :
    ∃ w1 c1 c2 c3 c4 c5 w2 v,
      rest = w1 ++ c1 :: c2 :: c3 :: c4 :: c5 :: (w2 ++ '|' :: v) ∧
      (∀ c ∈ w1, isPySpace c = true) ∧ (∀ c ∈ w2, isPySpace c = true) ∧
      ciEq c1 'a' = true ∧ ciEq c2 'u' = true ∧ ciEq c3 'd' = true ∧
      ciEq c4 'i' = true ∧ ciEq c5 'o' = true := by
  unfold audioTail at h
  split at h
  · rename_i c1 c2 c3 c4 c5 r2 heq
    simp only [Bool.and_eq_true] at h
    obtain ⟨⟨⟨⟨⟨h1, h2⟩, h3⟩, h4⟩, h5⟩, hpipe⟩ := h
    unfold pipeAfterWs at hpipe
    split at hpipe
    · rename_i v heq2
      refine ⟨rest.takeWhile isPySpace, c1, c2, c3, c4, c5,
        r2.takeWhile isPySpace, v, ?_, ?_, ?_, h1, h2, h3, h4, h5⟩
      · conv_lhs => rw [← List.takeWhile_append_dropWhile (p := isPySpace) (l := rest)]
        rw [heq]
        congr 1
        simp only [List.cons.injEq, true_and]
        conv_lhs => rw [← List.takeWhile_append_dropWhile (p := isPySpace) (l := r2)]
        rw [heq2]
      · intro c hc
        exact List.mem_takeWhile_imp hc
      · intro c hc
        exact List.mem_takeWhile_imp hc
    · cases hpipe
  · cases h

theorem searchAudio_decomp : ∀ {l : List Char}, searchAudio l = true →
    ∃ u rest, l = u ++ '\x7b' :: '\x7b' :: rest ∧ audioTail rest = true := by
  intro l
  induction l with
  | nil => intro h; cases h
  | cons c cs ih =>
    intro h
    rw [searchAudio] at h
    rcases (Bool.or_eq_true _ _).mp h with h1 | h2
    · unfold audioPrefixAt at h1
      split at h1
      · rename_i rest heq
        exact ⟨[], rest, by rw [heq]; rfl, h1⟩
      · cases h1
    · obtain ⟨u, rest, hl, ht⟩ := ih h2
      exact ⟨c :: u, rest, by rw [hl]; rfl, ht⟩

theorem searchAudio_build :
    ∀ (u rest : List Char), audioTail rest = true →
      searchAudio (u ++ '\x7b' :: '\x7b' :: rest) = true := by
  intro u
  induction u with
  | nil =>
    intro rest h
    rw [List.nil_append, searchAudio,
      show audioPrefixAt ('\x7b' :: '\x7b' :: rest) = audioTail rest from rfl, h]
    rfl
  | cons c u ih =>
    intro rest h
    rw [List.cons_append, searchAudio, ih rest h, Bool.or_true]

/-- Claim C10: the audio-presence detector fires exactly when the document
contains, anywhere, `{{` followed by optional whitespace, the five letters
of `audio` in any casing (per `re.IGNORECASE`, which for the letter `i`
also accepts `İ` U+0130 and `ı` U+0131), optional whitespace and `|` — no
closing braces or filename argument required — and whenever it fires the
editor returns the no-change sentinel (so an unterminated audio fragment
already counts as audio). -/
theorem claim_C10_audio_detector (doc : List Char) :
    (page_has_audio doc = true ↔
      ∃ u w1 c1 c2 c3 c4 c5 w2 v,
        doc = u ++ '\x7b' :: '\x7b' ::
          (w1 ++ c1 :: c2 :: c3 :: c4 :: c5 :: (w2 ++ '|' :: v)) ∧
        (∀ c ∈ w1, isPySpace c = true) ∧ (∀ c ∈ w2, isPySpace c = true) ∧
        ciEq c1 'a' = true ∧ ciEq c2 'u' = true ∧ ciEq c3 'd' = true ∧
        ciEq c4 'i' = true ∧ ciEq c5 'o' = true) ∧
    (page_has_audio doc = true → ∀ f, add_pronunciation_to_page doc f = none) := by
  constructor
  · constructor
    · intro h
      obtain ⟨u, rest, hl, ht⟩ := searchAudio_decomp h
      obtain ⟨w1, c1, c2, c3, c4, c5, w2, v, hr, hw1, hw2, h1, h2, h3, h4, h5⟩ :=
        audioTail_decomp ht
      exact ⟨u, w1, c1, c2, c3, c4, c5, w2, v, by rw [hl, hr], hw1, hw2,
        h1, h2, h3, h4, h5⟩
    · rintro ⟨u, w1, c1, c2, c3, c4, c5, w2, v, hl, hw1, hw2, h1, h2, h3, h4, h5⟩
      rw [hl]
      exact searchAudio_build u _ (audioTail_build hw1 hw2 h1 h2 h3 h4 h5)
  · intro h f
    exact add_eq_none_of_audio f h

/-- Witness for C10: an unterminated audio fragment counts as audio and
blocks the editor, also when the `i` of `audio` is written with the
IGNORECASE equivalent `ı` (U+0131). -/
theorem claim_C10_audio_detector_witness :
    page_has_audio "x\x7b\x7baudıo|".data = true ∧
      add_pronunciation_to_page "x\x7b\x7baudıo|".data "a.wav".data = none :=
  ⟨by decide,
    (claim_C10_audio_detector "x\x7b\x7baudıo|".data).2 (by decide) "a.wav".data⟩

/-- Witness for the amended C5 at the ambiguous example filename. -/
theorem claim_C5_amended_witness :
    llFilenameMatch
        ("LL-Q36236 (mal)-".data ++ ("A".data ++ '-' :: ("B-C".data ++ ".wav".data))) =
      some ⟨"A".data, "B-C".data, "wav".data⟩ :=
  claim_C5_amended "A".data "B-C".data (by decide) (by decide) (by decide) (by decide)
